import Mathlib

/-!
Shallow embedding of `pyscf/tools/cubegen.py` (functions `density` and `mep`).

Scalars are modelled as real numbers.  The external numerics engine
(`pyscf` core: `Mole` attribute access, AO evaluation, the `cint1e_rinv_sph`
integral) is modelled as abstract capabilities carried by the `Mole`
structure; helpers of this repository that are not under `src/`
(`pyscf.tools.m_cube.cube_c`, `pyscf.dft.gen_grid.prange`,
`pyscf.dft.numint.eval_ao` / `eval_rho`) are modelled from the spec, as
their doc comments state.  `numpy` operations (`einsum`, `reshape`,
array subtraction) are modelled by their documented semantics.
-/

set_option maxHeartbeats 1000000

noncomputable section

namespace Cubegen

/-- A point of 3-dimensional real space (one row of a coordinate array). -/
@[ext]
structure Pt where
  x : ℝ
  y : ℝ
  z : ℝ

/-- Componentwise difference of two points (`numpy` broadcast subtraction
`r - coords`, restricted to a single row). -/
def ptSub (a b : Pt) : Pt := ⟨a.x - b.x, a.y - b.y, a.z - b.z⟩

/-- Dot product of a row with itself, `numpy.einsum('xi,xi->x', rp, rp)`
specialised to one row. -/
def dot (a b : Pt) : ℝ := a.x * b.x + a.y * b.y + a.z * b.z

/-- The molecule, with the external integral engine abstracted as function
fields: `natm`, `atom_coord`, `atom_charge` are the geometry accessors;
`nbas` is the basis size; `ao` gives the basis-function values at a point;
`rinv_intor` gives the matrix `intor('cint1e_rinv_sph')` as a function of the
integral origin; `rinv_orig` is the mutable origin state set by
`set_rinv_orig_`. -/
structure Mole where
  natm : Nat
  atom_coord : Nat → Pt
  atom_charge : Nat → ℝ
  nbas : Nat
  ao : Pt → Nat → ℝ
  rinv_intor : Pt → Nat → Nat → ℝ
  rinv_orig : Pt

/-- `mol.set_rinv_orig_(p)`: destructively moves the integral origin;
modelled as explicit state passing. -/
def Mole.set_rinv_orig_ (mol : Mole) (p : Pt) : Mole :=
  ⟨mol.natm, mol.atom_coord, mol.atom_charge, mol.nbas, mol.ao,
   mol.rinv_intor, p⟩

/-- `mol.intor('cint1e_rinv_sph')`: the rinv integral matrix at the current
origin state. -/
def Mole.intor_rinv (mol : Mole) : Nat → Nat → ℝ :=
  mol.rinv_intor mol.rinv_orig

/-- `numpy.einsum('ij,ij', A, B)` over an `n × n` index range: the sum of the
elementwise (Hadamard) product. -/
def einsum2 (n : Nat) (A B : Nat → Nat → ℝ) : ℝ :=
  ∑ i ∈ Finset.range n, ∑ j ∈ Finset.range n, A i j * B i j

/-- Divisor of atom `i`'s nuclear term at point `p`:
`numpy.einsum('xi,xi->x', rp, rp)**.5` at the row of `p`, with
`rp = mol.atom_coord(i) - p` (cubegen.py lines 69-72). -/
def nucDivisor (mol : Mole) (i : Nat) (p : Pt) : ℝ :=
  Real.sqrt (dot (ptSub (mol.atom_coord i) p) (ptSub (mol.atom_coord i) p))

/-- The nuclear-potential accumulation of cubegen.py lines 67-72, at a single
grid point: `Vnuc = Σ_i Z_i / sqrt(rp·rp)`. -/
def vnuc (mol : Mole) (p : Pt) : ℝ :=
  ∑ i ∈ Finset.range mol.natm, mol.atom_charge i / nucDivisor mol i p

/-- The electronic-potential loop of cubegen.py lines 75-78: for each point,
set the rinv origin, evaluate the integral matrix, contract with `dm`;
returns the final molecule state and the list `Vele`. -/
def veleLoop (dm : Nat → Nat → ℝ) : Mole → List Pt → Mole × List ℝ
  | mol, [] => (mol, [])
  | mol, p :: ps =>
    let mol1 := mol.set_rinv_orig_ p
    let v := einsum2 mol1.nbas mol1.intor_rinv dm
    let rest := veleLoop dm mol1 ps
    (rest.1, v :: rest.2)

/-- The flat MEP array of cubegen.py line 80: `MEP = Vnuc - Vele`,
elementwise over the grid points. -/
def mepVals (mol : Mole) (dm : Nat → Nat → ℝ) (coords : List Pt) : List ℝ :=
  List.zipWith (fun a b => a - b) (coords.map (vnuc mol))
    (veleLoop dm mol coords).2

/-- Modelled from the spec: `pyscf.dft.gen_grid.prange` is not under `src/`.
Spec 4.2: points are processed in bounded-size chunks that together cover
exactly `[0, ngrid)`; chunk `k` is `[start + k*step, min(start+(k+1)*step, stop))`.
Fuel-based recursion; the caller supplies `fuel = stop`, enough for every
positive `step`. -/
def prangeGo (step : Nat) : Nat → Nat → Nat → List (Nat × Nat)
  | 0, _, _ => []
  | fuel + 1, s, e =>
    if s < e then (s, min (s + step) e) :: prangeGo step fuel (s + step) e
    else []

/-- Modelled from the spec: `pyscf.dft.gen_grid.prange` is not under `src/`.
The chunk list `[(ip0, ip1), ...]` iterated by the density loop
(cubegen.py line 39). A zero step yields no chunks. -/
def prange (start stop step : Nat) : List (Nat × Nat) :=
  if step = 0 then [] else prangeGo step stop start stop

/-- Modelled from the spec: `pyscf.dft.numint.eval_ao` is not under `src/`.
Spec 4.2: evaluate all basis functions at the chunk's coordinates. -/
def eval_ao (mol : Mole) (coords : List Pt) : List (Nat → ℝ) :=
  coords.map mol.ao

/-- The density value at one point obtained by contracting the AO values with
the density matrix: `Σ_ij ao_i(p) dm_ij ao_j(p)`. -/
def rho_at (mol : Mole) (dm : Nat → Nat → ℝ) (p : Pt) : ℝ :=
  ∑ i ∈ Finset.range mol.nbas, ∑ j ∈ Finset.range mol.nbas,
    mol.ao p i * dm i j * mol.ao p j

/-- Modelled from the spec: `pyscf.dft.numint.eval_rho` is not under `src/`.
Spec 4.2: contract the evaluated basis functions with the density matrix to
obtain the density value per point. -/
def eval_rho (mol : Mole) (aoVals : List (Nat → ℝ)) (dm : Nat → Nat → ℝ) :
    List ℝ :=
  aoVals.map (fun a =>
    ∑ i ∈ Finset.range mol.nbas, ∑ j ∈ Finset.range mol.nbas,
      a i * dm i j * a j)

/-- The chunked density loop of cubegen.py lines 36-41: for each chunk
`[ip0, ip1)` of `prange`, evaluate the AOs on `coords[ip0:ip1]` and write
`eval_rho` of the chunk into the slice `rho[ip0:ip1]`; since the chunks tile
`[0, ngrid)` in order, the filled array is the concatenation. -/
def density_rho (mol : Mole) (dm : Nat → Nat → ℝ) (coords : List Pt)
    (blksize : Nat) : List ℝ :=
  (prange 0 coords.length blksize).flatMap
    (fun pr =>
      eval_rho mol (eval_ao mol ((coords.drop pr.1).take (pr.2 - pr.1))) dm)

/-- Modelled from the spec: the grid margin of `pyscf.tools.m_cube.cube_c`
(not under `src/`); spec 4.1 leaves the exact margin a free design
parameter. -/
def boxMargin : ℝ := 6

/-- Modelled from the spec: the bounding-box minimum of one coordinate axis
over the molecule's atoms (spec 4.1; `cube_c` is not under `src/`). -/
def boxMin (mol : Mole) (f : Pt → ℝ) : ℝ :=
  ((List.range mol.natm).map (fun i => f (mol.atom_coord i))).foldr min
    (f (mol.atom_coord 0))

/-- Modelled from the spec: the bounding-box maximum of one coordinate axis
over the molecule's atoms (spec 4.1; `cube_c` is not under `src/`). -/
def boxMax (mol : Mole) (f : Pt → ℝ) : ℝ :=
  ((List.range mol.natm).map (fun i => f (mol.atom_coord i))).foldr max
    (f (mol.atom_coord 0))

/-- Modelled from the spec: the ordered grid coordinates of
`pyscf.tools.m_cube.cube_c.get_coords()` (not under `src/`). Spec 4.1: the
box is the atomic bounding box expanded by a margin, sampled on
`nx × ny × nz` points with x outermost and z innermost. -/
def gridCoords (mol : Mole) (nx ny nz : Nat) : List Pt :=
  (List.range nx).flatMap (fun ix : Nat =>
    (List.range ny).flatMap (fun iy : Nat =>
      (List.range nz).map (fun iz : Nat =>
        ⟨boxMin mol Pt.x - boxMargin / 2 +
           (boxMax mol Pt.x - boxMin mol Pt.x + boxMargin) * (ix : ℝ) / (nx : ℝ),
         boxMin mol Pt.y - boxMargin / 2 +
           (boxMax mol Pt.y - boxMin mol Pt.y + boxMargin) * (iy : ℝ) / (ny : ℝ),
         boxMin mol Pt.z - boxMargin / 2 +
           (boxMax mol Pt.z - boxMin mol Pt.z + boxMargin) * (iz : ℝ) / (nz : ℝ)⟩)))

/-- The grid object built by `cube_c` (dimensions plus the ordered sample
coordinates). -/
structure CubeGrid where
  nx : Int
  ny : Int
  nz : Int
  coords : List Pt

/-- Modelled from the spec: `pyscf.tools.m_cube.cube_c` is not under `src/`.
Spec 4.1: given a molecule and three positive integers, produce a grid;
reject `nx`, `ny`, `nz` ≤ 0 (spec 7: fatal, immediate, before any
computation). -/
def cube_c (mol : Mole) (nx ny nz : Int) : Except String CubeGrid :=
  if 0 < nx ∧ 0 < ny ∧ 0 < nz then
    .ok ⟨nx, ny, nz, gridCoords mol nx.toNat ny.toNat nz.toNat⟩
  else
    .error "cube_c: grid dimensions must be positive"

/-- `cc.get_coords()`. -/
def CubeGrid.get_coords (cc : CubeGrid) : List Pt := cc.coords

/-- `cc.get_ngrids()`: the total number of sample points. -/
def CubeGrid.get_ngrids (cc : CubeGrid) : Nat := cc.coords.length

/-- The written cube file: output path, comment line, declared grid shape and
the scalar values in flat (x outer, z inner) order. -/
structure CubeFile where
  outfile : String
  comment : String
  nx : Int
  ny : Int
  nz : Int
  data : List ℝ

/-- `numpy` `reshape` to shape `(nx, ny, nz)` for a flat array, restricted to
positive dimensions (the only shapes cubegen reaches): it succeeds exactly
when the length equals `nx*ny*nz` and preserves the flat order, and raises
(here: `none`) otherwise. -/
def reshape3 (l : List ℝ) (nx ny nz : Int) : Option (List ℝ) :=
  if 0 < nx ∧ 0 < ny ∧ 0 < nz ∧ l.length = (nx * ny * nz).toNat then some l
  else none

/-- `cubegen.density` (cubegen.py lines 16-44): build the grid, fill the
density array chunk by chunk, reshape, write.  The returned value models the
written cube file; `.error` models an uncaught Python exception before any
file is written. -/
def density (mol : Mole) (outfile : String) (dm : Nat → Nat → ℝ)
    (nx ny nz : Int) : Except String CubeFile :=
  match cube_c mol nx ny nz with
  | .error e => .error e
  | .ok cc =>
    let coords := cc.get_coords
    let ngrids := cc.get_ngrids
    let blksize := min 8000 ngrids
    let rho := density_rho mol dm coords blksize
    match reshape3 rho cc.nx cc.ny cc.nz with
    | none => .error "cannot reshape density array"
    | some r =>
      .ok ⟨outfile, "Electron density in real space (e/Bohr^3)",
           cc.nx, cc.ny, cc.nz, r⟩

/-- The call `cubegen.density(mol, outfile, dm)` with the grid dimensions
omitted: cubegen.py line 16 declares the defaults `nx=80, ny=80, nz=80`. -/
def densityDefault (mol : Mole) (outfile : String) (dm : Nat → Nat → ℝ) :
    Except String CubeFile :=
  density mol outfile dm 80 80 80

/-- `cubegen.mep` (cubegen.py lines 47-85): build the grid, compute the
nuclear sum and the per-point electronic loop, subtract, reshape, write.
The second component is the molecule state after the call (the rinv origin
mutation of line 77 persists). -/
def mep (mol : Mole) (outfile : String) (dm : Nat → Nat → ℝ)
    (nx ny nz : Int) : Except String CubeFile × Mole :=
  match cube_c mol nx ny nz with
  | .error e => (.error e, mol)
  | .ok cc =>
    let coords := cc.get_coords
    let res := veleLoop dm mol coords
    let flatMEP := mepVals mol dm coords
    match reshape3 flatMEP nx ny nz with
    | none => (.error "cannot reshape MEP array", res.1)
    | some r =>
      (.ok ⟨outfile, "Molecular electrostatic potential in real space",
            nx, ny, nz, r⟩, res.1)

/-- The call `cubegen.mep(mol, outfile, dm)` with the grid dimensions
omitted: cubegen.py line 47 declares the defaults `nx=80, ny=80, nz=80`. -/
def mepDefault (mol : Mole) (outfile : String) (dm : Nat → Nat → ℝ) :
    Except String CubeFile × Mole :=
  mep mol outfile dm 80 80 80

/-- The spec's own nuclear-term formula (spec 4.3): sum over all atoms `i` of
`Z_i / |r_i − p|`, the distance written with squared components. -/
def specNuclearTerm (mol : Mole) (p : Pt) : ℝ :=
  ∑ i ∈ Finset.range mol.natm,
    mol.atom_charge i /
      Real.sqrt (((mol.atom_coord i).x - p.x) ^ 2 +
        ((mol.atom_coord i).y - p.y) ^ 2 + ((mol.atom_coord i).z - p.z) ^ 2)

/-- A tiny concrete molecule used to evaluate the definitions: one atom of
charge 3 at the origin, a single basis function that is constantly 1, rinv
integral matrices constantly 1, origin initially at the atom. -/
def molW : Mole :=
  ⟨1, fun _ => ⟨0, 0, 0⟩, fun _ => 3, 1, fun _ _ => 1, fun _ _ _ => 1,
   ⟨0, 0, 0⟩⟩

/-- A concrete 1×1 density matrix whose single entry is negative. -/
def dmW : Nat → Nat → ℝ := fun _ _ => -1

/-- Three concrete sample points on the x axis. -/
def coordsW : List Pt := [⟨0, 0, 0⟩, ⟨1, 0, 0⟩, ⟨2, 0, 0⟩]

/-- The cube file that `density molW "out" dmW 1 1 1` writes. -/
def fileW : CubeFile :=
  ⟨"out", "Electron density in real space (e/Bohr^3)", 1, 1, 1,
   (gridCoords molW 1 1 1).map (rho_at molW dmW)⟩

end Cubegen

namespace Cubegen

/-- The chunks of `prangeGo` tile the index interval: flattening the
half-open chunks gives exactly `range' s (e - s)`. -/
theorem prangeGo_flatMap_range' (step : Nat) (hstep : 0 < step) :
    ∀ (fuel s e : Nat), e - s ≤ fuel →
      (prangeGo step fuel s e).flatMap
          (fun pr => List.range' pr.1 (pr.2 - pr.1)) =
        List.range' s (e - s)
  | 0, s, e, h => by
    have h0 : e - s = 0 := Nat.le_zero.mp h
    simp [prangeGo, h0]
  | fuel + 1, s, e, h => by
    by_cases hse : s < e
    · have ih := prangeGo_flatMap_range' step hstep fuel (s + step) e (by omega)
      by_cases hin : s + step ≤ e
      · have hmin : min (s + step) e = s + step := by omega
        simp only [prangeGo, if_pos hse, List.flatMap_cons, ih, hmin,
          Nat.add_sub_cancel_left]
        rw [List.range'_append_1]
        congr 1
        omega
      · have hmin : min (s + step) e = e := by omega
        have h2 : e - (s + step) = 0 := by omega
        simp only [prangeGo, if_pos hse, List.flatMap_cons, ih, hmin, h2,
          List.range'_zero, List.append_nil]
    · have h0 : e - s = 0 := by omega
      simp [prangeGo, if_neg hse, h0]

/-- Slice version of the tiling lemma: flattening the per-chunk slices of a
list reproduces the slice of the whole interval. -/
theorem prangeGo_flatMap_slice (g : Pt → ℝ) (coords : List Pt)
    (step : Nat) (hstep : 0 < step) :
    ∀ (fuel s e : Nat), e - s ≤ fuel →
      (prangeGo step fuel s e).flatMap
          (fun pr => ((coords.drop pr.1).take (pr.2 - pr.1)).map g) =
        ((coords.drop s).take (e - s)).map g
  | 0, s, e, h => by
    have h0 : e - s = 0 := Nat.le_zero.mp h
    simp [prangeGo, h0]
  | fuel + 1, s, e, h => by
    by_cases hse : s < e
    · have ih := prangeGo_flatMap_slice g coords step hstep fuel (s + step) e
        (by omega)
      by_cases hin : s + step ≤ e
      · have hmin : min (s + step) e = s + step := by omega
        simp only [prangeGo, if_pos hse, List.flatMap_cons, ih, hmin,
          Nat.add_sub_cancel_left]
        rw [show e - s = step + (e - (s + step)) by omega, List.take_add,
          List.map_append, List.drop_drop]
      · have hmin : min (s + step) e = e := by omega
        have h2 : e - (s + step) = 0 := by omega
        simp only [prangeGo, if_pos hse, List.flatMap_cons, ih, hmin, h2,
          List.take_zero, List.map_nil, List.append_nil]
    · have h0 : e - s = 0 := by omega
      simp [prangeGo, if_neg hse, h0]

/-- Every chunk `(ip0, ip1)` of `prange` has length `ip1 - ip0 ≤ step`. -/
theorem prangeGo_chunk_len (step : Nat) :
    ∀ (fuel s e : Nat) (pr : Nat × Nat), pr ∈ prangeGo step fuel s e →
      pr.2 - pr.1 ≤ step
  | 0, _, _, _, h => by simp [prangeGo] at h
  | fuel + 1, s, e, pr, h => by
    rw [prangeGo] at h
    by_cases hse : s < e
    · rw [if_pos hse] at h
      rcases List.mem_cons.mp h with h1 | h2
      · subst h1
        simp only []
        omega
      · exact prangeGo_chunk_len step fuel (s + step) e pr h2
    · rw [if_neg hse] at h
      simp at h

/-- Batched evaluation is pointwise: `eval_rho` after `eval_ao` is the map of
the per-point contraction. -/
theorem eval_rho_eval_ao (mol : Mole) (dm : Nat → Nat → ℝ) (l : List Pt) :
    eval_rho mol (eval_ao mol l) dm = l.map (rho_at mol dm) := by
  simp [eval_rho, eval_ao, List.map_map, rho_at, Function.comp]

/-- The chunked density loop with any positive block size computes the map of
the per-point contraction over all coordinates. -/
theorem density_rho_eq_map (mol : Mole) (dm : Nat → Nat → ℝ)
    (coords : List Pt) (blksize : Nat) (hb : 0 < blksize) :
    density_rho mol dm coords blksize = coords.map (rho_at mol dm) := by
  unfold density_rho prange
  rw [if_neg (by omega)]
  simp only [eval_rho_eval_ao]
  rw [prangeGo_flatMap_slice (rho_at mol dm) coords blksize hb
    coords.length 0 coords.length (by omega)]
  simp

end Cubegen

namespace Cubegen

/-- The `Vele` list: the per-point loop contracts, at each grid point `p`,
the rinv integral matrix with origin `p` against the density matrix; the
threaded origin state does not affect the values. -/
theorem veleLoop_snd (dm : Nat → Nat → ℝ) :
    ∀ (coords : List Pt) (mol : Mole),
      (veleLoop dm mol coords).2 =
        coords.map (fun p => einsum2 mol.nbas (mol.rinv_intor p) dm)
  | [], _ => rfl
  | p :: ps, mol => by
    simp only [veleLoop, veleLoop_snd dm ps, Mole.set_rinv_orig_,
      Mole.intor_rinv, List.map_cons]

/-- The molecule state after the `Vele` loop: the rinv origin is left at the
last processed coordinate (or untouched when there are no points). -/
theorem veleLoop_fst (dm : Nat → Nat → ℝ) :
    ∀ (coords : List Pt) (mol : Mole),
      (veleLoop dm mol coords).1 =
        mol.set_rinv_orig_ (coords.getLastD mol.rinv_orig)
  | [], mol => rfl
  | p :: ps, mol => by
    have step1 : (veleLoop dm mol (p :: ps)).1 =
        (veleLoop dm (mol.set_rinv_orig_ p) ps).1 := rfl
    rw [step1, veleLoop_fst dm ps (mol.set_rinv_orig_ p), List.getLastD_cons]
    simp [Mole.set_rinv_orig_]

/-- The flat MEP array is the pointwise difference of the nuclear sum and the
per-point electronic contraction. -/
theorem mepVals_eq_map (mol : Mole) (dm : Nat → Nat → ℝ) (coords : List Pt) :
    mepVals mol dm coords =
      coords.map
        (fun p => vnuc mol p - einsum2 mol.nbas (mol.rinv_intor p) dm) := by
  rw [mepVals, veleLoop_snd, List.zipWith_map, List.zipWith_same]

/-- Length of a flat map whose pieces all have the same length. -/
theorem length_flatMap_const {α β : Type} (l : List α) (f : α → List β)
    (k : Nat) (h : ∀ a ∈ l, (f a).length = k) :
    (l.flatMap f).length = l.length * k := by
  induction l with
  | nil => simp
  | cons a t ih =>
    rw [List.flatMap_cons, List.length_append, h a (List.mem_cons_self a t),
      ih (fun b hb => h b (List.mem_cons_of_mem a hb)), List.length_cons]
    ring

/-- The grid has exactly `nx * ny * nz` sample points. -/
theorem gridCoords_length (mol : Mole) (nx ny nz : Nat) :
    (gridCoords mol nx ny nz).length = nx * ny * nz := by
  unfold gridCoords
  rw [length_flatMap_const _ _ (ny * nz)
      (fun a _ => by
        rw [length_flatMap_const _ _ nz
            (fun b _ => by rw [List.length_map, List.length_range]),
          List.length_range]),
    List.length_range, Nat.mul_assoc]

/-- `toNat` distributes over the product of three positive integers. -/
theorem toNat_mul3 (a b c : Int) (ha : 0 < a) (hb : 0 < b) (hc : 0 < c) :
    (a * b * c).toNat = a.toNat * b.toNat * c.toNat := by
  lift a to ℕ using ha.le
  lift b to ℕ using hb.le
  lift c to ℕ using hc.le
  norm_cast

end Cubegen

namespace Cubegen

/-- A self dot product is nonnegative. -/
theorem dot_self_nonneg (q : Pt) : 0 ≤ dot q q := by
  unfold dot
  have h1 := mul_self_nonneg q.x
  have h2 := mul_self_nonneg q.y
  have h3 := mul_self_nonneg q.z
  linarith

/-- A vanishing self dot product forces every component to vanish. -/
theorem dot_self_eq_zero {q : Pt} (h : dot q q = 0) :
    q.x = 0 ∧ q.y = 0 ∧ q.z = 0 := by
  unfold dot at h
  have h1 := mul_self_nonneg q.x
  have h2 := mul_self_nonneg q.y
  have h3 := mul_self_nonneg q.z
  exact ⟨mul_self_eq_zero.mp (by linarith), mul_self_eq_zero.mp (by linarith),
    mul_self_eq_zero.mp (by linarith)⟩

/-- `cube_c` succeeds on positive dimensions, producing the full grid. -/
theorem cube_c_pos (mol : Mole) (nx ny nz : Int) (hx : 0 < nx) (hy : 0 < ny)
    (hz : 0 < nz) :
    cube_c mol nx ny nz =
      .ok ⟨nx, ny, nz, gridCoords mol nx.toNat ny.toNat nz.toNat⟩ := by
  rw [cube_c, if_pos ⟨hx, hy, hz⟩]

/-- `cube_c` rejects non-positive dimensions. -/
theorem cube_c_neg (mol : Mole) (nx ny nz : Int)
    (h : ¬(0 < nx ∧ 0 < ny ∧ 0 < nz)) :
    cube_c mol nx ny nz =
      .error "cube_c: grid dimensions must be positive" := by
  rw [cube_c, if_neg h]

/-- `density` fails immediately on non-positive dimensions. -/
theorem density_error_of_neg (mol : Mole) (outfile : String)
    (dm : Nat → Nat → ℝ) (nx ny nz : Int)
    (h : ¬(0 < nx ∧ 0 < ny ∧ 0 < nz)) :
    density mol outfile dm nx ny nz =
      .error "cube_c: grid dimensions must be positive" := by
  unfold density
  rw [cube_c_neg mol nx ny nz h]

/-- `mep` fails immediately on non-positive dimensions, with the molecule
state untouched. -/
theorem mep_error_of_neg (mol : Mole) (outfile : String)
    (dm : Nat → Nat → ℝ) (nx ny nz : Int)
    (h : ¬(0 < nx ∧ 0 < ny ∧ 0 < nz)) :
    mep mol outfile dm nx ny nz =
      (.error "cube_c: grid dimensions must be positive", mol) := by
  unfold mep
  rw [cube_c_neg mol nx ny nz h]

/-- The full `density` run on positive dimensions: the written file carries
the per-point contraction values over the whole grid. -/
theorem density_eq_of_pos (mol : Mole) (outfile : String)
    (dm : Nat → Nat → ℝ) (nx ny nz : Int) (hx : 0 < nx) (hy : 0 < ny)
    (hz : 0 < nz) :
    density mol outfile dm nx ny nz =
      .ok ⟨outfile, "Electron density in real space (e/Bohr^3)", nx, ny, nz,
        (gridCoords mol nx.toNat ny.toNat nz.toNat).map (rho_at mol dm)⟩ := by
  have hlen : (gridCoords mol nx.toNat ny.toNat nz.toNat).length =
      nx.toNat * ny.toNat * nz.toNat := gridCoords_length mol _ _ _
  have hpos : 0 < (gridCoords mol nx.toNat ny.toNat nz.toNat).length := by
    rw [hlen]
    have hxn : 0 < nx.toNat := by omega
    have hyn : 0 < ny.toNat := by omega
    have hzn : 0 < nz.toNat := by omega
    exact Nat.mul_pos (Nat.mul_pos hxn hyn) hzn
  have hlen2 : ((gridCoords mol nx.toNat ny.toNat nz.toNat).map
      (rho_at mol dm)).length = (nx * ny * nz).toNat := by
    rw [List.length_map, hlen, toNat_mul3 nx ny nz hx hy hz]
  unfold density
  rw [cube_c_pos mol nx ny nz hx hy hz]
  dsimp only [CubeGrid.get_coords, CubeGrid.get_ngrids]
  rw [density_rho_eq_map mol dm _ _ (by omega)]
  rw [reshape3, if_pos ⟨hx, hy, hz, hlen2⟩]

/-- The full `mep` run on positive dimensions: the written file carries the
flat MEP array, and the returned state is the loop's final state. -/
theorem mep_eq_of_pos (mol : Mole) (outfile : String) (dm : Nat → Nat → ℝ)
    (nx ny nz : Int) (hx : 0 < nx) (hy : 0 < ny) (hz : 0 < nz) :
    mep mol outfile dm nx ny nz =
      (.ok ⟨outfile, "Molecular electrostatic potential in real space",
          nx, ny, nz,
          mepVals mol dm (gridCoords mol nx.toNat ny.toNat nz.toNat)⟩,
       (veleLoop dm mol (gridCoords mol nx.toNat ny.toNat nz.toNat)).1) := by
  have hlen2 : (mepVals mol dm
      (gridCoords mol nx.toNat ny.toNat nz.toNat)).length =
      (nx * ny * nz).toNat := by
    rw [mepVals_eq_map, List.length_map, gridCoords_length,
      toNat_mul3 nx ny nz hx hy hz]
  unfold mep
  rw [cube_c_pos mol nx ny nz hx hy hz]
  dsimp only [CubeGrid.get_coords]
  rw [reshape3, if_pos ⟨hx, hy, hz, hlen2⟩]

end Cubegen

namespace Cubegen

/-- The concrete `density` run on a 1×1×1 grid used by the witnesses below:
it succeeds and writes `fileW`. -/
theorem densityW_ok : density molW "out" dmW 1 1 1 = .ok fileW :=
  density_eq_of_pos molW "out" dmW 1 1 1 (by decide) (by decide) (by decide)

/-- C1: for every molecule, density matrix and grid, the electrostatic
potential value that `mep` computes for grid point `k` equals the nuclear
term at that point minus the element-wise contraction of the one-electron
rinv integral matrix — evaluated with the integral origin set to that point —
with the density matrix, computed one point at a time. -/
theorem C1_mep_value_formula (mol : Mole) (dm : Nat → Nat → ℝ)
    (coords : List Pt) (k : Nat) (h : k < coords.length) :
    (mepVals mol dm coords)[k]? =
      some (vnuc mol (coords.get ⟨k, h⟩) -
        einsum2 mol.nbas (mol.rinv_intor (coords.get ⟨k, h⟩)) dm) := by
  rw [mepVals_eq_map, List.getElem?_map, List.getElem?_eq_getElem h]
  simp [List.get_eq_getElem]

/-- C1 witness: the formula instantiated at the second of three concrete
points. -/
theorem C1_witness :
    (mepVals molW dmW coordsW)[1]? =
      some (vnuc molW (coordsW.get ⟨1, by decide⟩) -
        einsum2 molW.nbas (molW.rinv_intor (coordsW.get ⟨1, by decide⟩))
          dmW) :=
  C1_mep_value_formula molW dmW coordsW 1 (by decide)

/-- C2: for every molecule, density matrix and grid, and every chunk size of
at least 1, the chunked density loop produces the same array as evaluating
all points in a single unchunked batch. -/
theorem C2_density_chunking_equivalence (mol : Mole) (dm : Nat → Nat → ℝ)
    (coords : List Pt) (blksize : Nat) (hb : 1 ≤ blksize) :
    density_rho mol dm coords blksize =
      eval_rho mol (eval_ao mol coords) dm := by
  rw [density_rho_eq_map mol dm coords blksize hb, eval_rho_eval_ao]

/-- C2 witness: chunk size 2 over three concrete points. -/
theorem C2_witness :
    density_rho molW dmW coordsW 2 =
      eval_rho molW (eval_ao molW coordsW) dmW :=
  C2_density_chunking_equivalence molW dmW coordsW 2 (by decide)

/-- C3: for a single atom of charge `Z` at the origin the nuclear term at
`(d,0,0)` with `d > 0` equals `Z/d`; in general the nuclear sum agrees with
the spec formula `Σ_i Z_i / |r_i − p|` with no approximation or cutoff. -/
theorem C3_nuclear_term (mol : Mole) (Z d : ℝ) (h1 : mol.natm = 1)
    (h2 : mol.atom_coord 0 = ⟨0, 0, 0⟩) (h3 : mol.atom_charge 0 = Z)
    (hd : 0 < d) :
    vnuc mol ⟨d, 0, 0⟩ = Z / d ∧
      ∀ (m : Mole) (p : Pt), vnuc m p = specNuclearTerm m p := by
  constructor
  · rw [vnuc, h1, Finset.sum_range_one, h3, nucDivisor, h2]
    have hdot : dot (ptSub ⟨0, 0, 0⟩ ⟨d, 0, 0⟩) (ptSub ⟨0, 0, 0⟩ ⟨d, 0, 0⟩) =
        d ^ 2 := by
      simp only [ptSub, dot]
      ring
    rw [hdot, Real.sqrt_sq hd.le]
  · intro m p
    rw [vnuc, specNuclearTerm]
    refine Finset.sum_congr rfl (fun i _ => ?_)
    have harg : dot (ptSub (m.atom_coord i) p) (ptSub (m.atom_coord i) p) =
        ((m.atom_coord i).x - p.x) ^ 2 + ((m.atom_coord i).y - p.y) ^ 2 +
          ((m.atom_coord i).z - p.z) ^ 2 := by
      simp only [ptSub, dot]
      ring
    rw [nucDivisor, harg]

/-- C3 witness: charge 3 at the origin, point `(2,0,0)`: the nuclear term is
`3/2`. -/
theorem C3_witness : vnuc molW ⟨2, 0, 0⟩ = 3 / 2 :=
  (C3_nuclear_term molW 3 2 rfl rfl rfl two_pos).1

/-- C4: a call with any grid dimension ≤ 0 fails immediately, before any
computation: both functions return the grid-construction error, no file
value is produced, and `mep` leaves the molecule untouched. -/
theorem C4_invalid_dims_rejected (mol : Mole) (outfile : String)
    (dm : Nat → Nat → ℝ) (nx ny nz : Int)
    (h : nx ≤ 0 ∨ ny ≤ 0 ∨ nz ≤ 0) :
    density mol outfile dm nx ny nz =
        .error "cube_c: grid dimensions must be positive" ∧
      mep mol outfile dm nx ny nz =
        (.error "cube_c: grid dimensions must be positive", mol) :=
  ⟨density_error_of_neg mol outfile dm nx ny nz (by omega),
   mep_error_of_neg mol outfile dm nx ny nz (by omega)⟩

/-- C4 witness: `nx = 0` is rejected by both functions. -/
theorem C4_witness :
    density molW "out" dmW 0 80 80 =
        .error "cube_c: grid dimensions must be positive" ∧
      mep molW "out" dmW 0 80 80 =
        (.error "cube_c: grid dimensions must be positive", molW) :=
  C4_invalid_dims_rejected molW "out" dmW 0 80 80 (by decide)

/-- C5: with the block size `min 8000 ngrids` used by `density`, every chunk
of `prange` has length at most `min 8000 ngrids`, and flattening the chunks
yields exactly the index list `0, ..., ngrids-1` in order — the chunks are
pairwise non-overlapping, cover `[0, ngrids)` exactly, and each output index
is written exactly once. -/
theorem C5_chunk_partition (ngrids : Nat) :
    (∀ pr ∈ prange 0 ngrids (min 8000 ngrids),
        pr.2 - pr.1 ≤ min 8000 ngrids) ∧
      (prange 0 ngrids (min 8000 ngrids)).flatMap
          (fun pr => List.range' pr.1 (pr.2 - pr.1)) =
        List.range ngrids := by
  constructor
  · intro pr hpr
    unfold prange at hpr
    by_cases h0 : min 8000 ngrids = 0
    · rw [if_pos h0] at hpr
      simp at hpr
    · rw [if_neg h0] at hpr
      exact prangeGo_chunk_len _ _ _ _ pr hpr
  · unfold prange
    by_cases h0 : min 8000 ngrids = 0
    · rw [if_pos h0]
      have hng : ngrids = 0 := by omega
      simp [hng]
    · rw [if_neg h0,
        prangeGo_flatMap_range' (min 8000 ngrids) (by omega) ngrids 0 ngrids
          (by omega), List.range_eq_range']
      norm_num

/-- C5 witness: a 5-point grid gives the single chunk `(0, 5)` of length at
most `min 8000 5`. -/
theorem C5_witness :
    (0, 5) ∈ prange 0 5 (min 8000 5) ∧
      ((0, 5) : Nat × Nat).2 - ((0, 5) : Nat × Nat).1 ≤ min 8000 5 :=
  ⟨by decide, (C5_chunk_partition 5).1 (0, 5) (by decide)⟩

/-- C6: the reshape to `(nx, ny, nz)` fails whenever the flat array length
differs from `nx*ny*nz`, and consequently every file value produced by
`density` or `mep` has data length exactly its declared `nx*ny*nz`. -/
theorem C6_reshape_mismatch_fatal :
    (∀ (l : List ℝ) (nx ny nz : Int), l.length ≠ (nx * ny * nz).toNat →
        reshape3 l nx ny nz = none) ∧
      (∀ (mol : Mole) (outfile : String) (dm : Nat → Nat → ℝ)
          (nx ny nz : Int) (f : CubeFile),
          density mol outfile dm nx ny nz = .ok f →
          f.data.length = (f.nx * f.ny * f.nz).toNat) ∧
      (∀ (mol : Mole) (outfile : String) (dm : Nat → Nat → ℝ)
          (nx ny nz : Int) (f : CubeFile),
          (mep mol outfile dm nx ny nz).1 = .ok f →
          f.data.length = (f.nx * f.ny * f.nz).toNat) := by
  refine ⟨?_, ?_, ?_⟩
  · intro l nx ny nz h
    rw [reshape3, if_neg (fun hc => h hc.2.2.2)]
  · intro mol outfile dm nx ny nz f hok
    by_cases hpos : 0 < nx ∧ 0 < ny ∧ 0 < nz
    · obtain ⟨hx, hy, hz⟩ := hpos
      rw [density_eq_of_pos mol outfile dm nx ny nz hx hy hz] at hok
      cases hok
      simp only [List.length_map]
      rw [gridCoords_length, toNat_mul3 nx ny nz hx hy hz]
    · rw [density_error_of_neg mol outfile dm nx ny nz hpos] at hok
      exact Except.noConfusion hok
  · intro mol outfile dm nx ny nz f hok
    by_cases hpos : 0 < nx ∧ 0 < ny ∧ 0 < nz
    · obtain ⟨hx, hy, hz⟩ := hpos
      rw [mep_eq_of_pos mol outfile dm nx ny nz hx hy hz] at hok
      cases hok
      rw [mepVals_eq_map]
      simp only [List.length_map]
      rw [gridCoords_length, toNat_mul3 nx ny nz hx hy hz]
    · rw [mep_error_of_neg mol outfile dm nx ny nz hpos] at hok
      exact Except.noConfusion hok

/-- C6 witness: a length-1 array cannot be reshaped to 2×2×2, and the
concrete written file's data length matches its declared shape. -/
theorem C6_witness :
    reshape3 [(0 : ℝ)] 2 2 2 = none ∧
      fileW.data.length = (fileW.nx * fileW.ny * fileW.nz).toNat :=
  ⟨C6_reshape_mismatch_fatal.1 [(0 : ℝ)] 2 2 2 (by decide),
   C6_reshape_mismatch_fatal.2.1 molW "out" dmW 1 1 1 fileW densityW_ok⟩

/-- C7: the nuclear division is unguarded: at a grid point coinciding with an
atomic position the divisor is exactly zero (a division by zero whose value
is propagated, since `mep` raises no error and still produces a file on any
valid grid), while at every point coinciding with no atom the divisor is
nonzero and the division well-defined. -/
theorem C7_unguarded_singularity :
    (∀ (mol : Mole) (i : Nat) (p : Pt), mol.atom_coord i = p →
        nucDivisor mol i p = 0) ∧
      (∀ (mol : Mole) (p : Pt) (i : Nat), mol.atom_coord i ≠ p →
        nucDivisor mol i p ≠ 0) ∧
      (∀ (mol : Mole) (outfile : String) (dm : Nat → Nat → ℝ)
          (nx ny nz : Int), 0 < nx → 0 < ny → 0 < nz →
          ∃ f : CubeFile, (mep mol outfile dm nx ny nz).1 = .ok f) := by
  refine ⟨?_, ?_, ?_⟩
  · intro mol i p h
    rw [nucDivisor, h]
    have hz : ptSub p p = ⟨0, 0, 0⟩ := by
      simp [ptSub]
    rw [hz]
    simp [dot, Real.sqrt_zero]
  · intro mol p i hne h0
    apply hne
    rw [nucDivisor] at h0
    have hnn := dot_self_nonneg (ptSub (mol.atom_coord i) p)
    have hdot := (Real.sqrt_eq_zero hnn).mp h0
    obtain ⟨hcx, hcy, hcz⟩ := dot_self_eq_zero hdot
    simp only [ptSub] at hcx hcy hcz
    ext
    · linarith
    · linarith
    · linarith
  · intro mol outfile dm nx ny nz hx hy hz
    refine ⟨⟨outfile, "Molecular electrostatic potential in real space",
      nx, ny, nz,
      mepVals mol dm (gridCoords mol nx.toNat ny.toNat nz.toNat)⟩, ?_⟩
    rw [mep_eq_of_pos mol outfile dm nx ny nz hx hy hz]

/-- C7 witness: at the atom's own position the divisor is zero; at `(2,0,0)`
it is nonzero. -/
theorem C7_witness :
    nucDivisor molW 0 ⟨0, 0, 0⟩ = 0 ∧ nucDivisor molW 0 ⟨2, 0, 0⟩ ≠ 0 :=
  ⟨C7_unguarded_singularity.1 molW 0 ⟨0, 0, 0⟩ rfl,
   C7_unguarded_singularity.2.1 molW ⟨2, 0, 0⟩ 0
     (by norm_num [molW, Pt.mk.injEq])⟩

/-- C8: `density` performs no clamping or post-processing: the written file's
data is exactly the per-point contraction values over the grid, whatever they
are (negative values included). -/
theorem C8_no_clamping (mol : Mole) (outfile : String) (dm : Nat → Nat → ℝ)
    (nx ny nz : Int) (f : CubeFile)
    (h : density mol outfile dm nx ny nz = .ok f) :
    f.data =
      (gridCoords mol nx.toNat ny.toNat nz.toNat).map (rho_at mol dm) := by
  by_cases hpos : 0 < nx ∧ 0 < ny ∧ 0 < nz
  · obtain ⟨hx, hy, hz⟩ := hpos
    rw [density_eq_of_pos mol outfile dm nx ny nz hx hy hz] at h
    cases h
    rfl
  · rw [density_error_of_neg mol outfile dm nx ny nz hpos] at h
    exact Except.noConfusion h

/-- C8 witness: the concrete run stores the contraction values unchanged,
and that contraction is negative (`-1`) at the origin — stored as-is. -/
theorem C8_witness :
    fileW.data = (gridCoords molW 1 1 1).map (rho_at molW dmW) ∧
      rho_at molW dmW ⟨0, 0, 0⟩ = -1 :=
  ⟨C8_no_clamping molW "out" dmW 1 1 1 fileW densityW_ok,
   by simp [rho_at, molW, dmW]⟩

/-- C9: `mep` sets the molecule's rinv origin once per grid point and never
restores it: after the call the origin sits at the last grid coordinate, so
the molecule differs from the input whenever its original origin differs
from that coordinate. -/
theorem C9_mep_mutates_origin (mol : Mole) (outfile : String)
    (dm : Nat → Nat → ℝ) (nx ny nz : Int) (hx : 0 < nx) (hy : 0 < ny)
    (hz : 0 < nz) :
    ∃ h : gridCoords mol nx.toNat ny.toNat nz.toNat ≠ [],
      (mep mol outfile dm nx ny nz).2 =
          mol.set_rinv_orig_
            ((gridCoords mol nx.toNat ny.toNat nz.toNat).getLast h) ∧
        ((gridCoords mol nx.toNat ny.toNat nz.toNat).getLast h ≠
            mol.rinv_orig →
          (mep mol outfile dm nx ny nz).2 ≠ mol) := by
  have hne : gridCoords mol nx.toNat ny.toNat nz.toNat ≠ [] := by
    apply List.ne_nil_of_length_pos
    rw [gridCoords_length]
    have hxn : 0 < nx.toNat := by omega
    have hyn : 0 < ny.toNat := by omega
    have hzn : 0 < nz.toNat := by omega
    exact Nat.mul_pos (Nat.mul_pos hxn hyn) hzn
  have hmain : (mep mol outfile dm nx ny nz).2 =
      mol.set_rinv_orig_
        ((gridCoords mol nx.toNat ny.toNat nz.toNat).getLast hne) := by
    rw [mep_eq_of_pos mol outfile dm nx ny nz hx hy hz]
    show (veleLoop dm mol (gridCoords mol nx.toNat ny.toNat nz.toNat)).1 = _
    rw [veleLoop_fst]
    congr 1
    rw [List.getLastD_eq_getLast?,
      List.getLast?_eq_getLast (gridCoords mol nx.toNat ny.toNat nz.toNat)
        hne]
    rfl
  refine ⟨hne, hmain, fun hdiff heq => ?_⟩
  rw [heq] at hmain
  exact hdiff ((congrArg Mole.rinv_orig hmain).symm)

/-- C9 witness: the 1×1×1 run leaves the origin at the grid's only
coordinate. -/
theorem C9_witness :
    ∃ h : gridCoords molW (1 : Int).toNat (1 : Int).toNat
        (1 : Int).toNat ≠ [],
      (mep molW "out" dmW 1 1 1).2 =
          molW.set_rinv_orig_
            ((gridCoords molW (1 : Int).toNat (1 : Int).toNat
              (1 : Int).toNat).getLast h) ∧
        ((gridCoords molW (1 : Int).toNat (1 : Int).toNat
            (1 : Int).toNat).getLast h ≠ molW.rinv_orig →
          (mep molW "out" dmW 1 1 1).2 ≠ molW) :=
  C9_mep_mutates_origin molW "out" dmW 1 1 1 (by decide) (by decide)
    (by decide)

/-- C10: with the grid dimensions omitted, both functions default to
`nx = ny = nz = 80` and the field is evaluated on an 80 × 80 × 80 grid of
512000 points. -/
theorem C10_default_grid (mol : Mole) (outfile : String)
    (dm : Nat → Nat → ℝ) :
    densityDefault mol outfile dm = density mol outfile dm 80 80 80 ∧
      mepDefault mol outfile dm = mep mol outfile dm 80 80 80 ∧
      (gridCoords mol (80 : Int).toNat (80 : Int).toNat
        (80 : Int).toNat).length = 512000 := by
  refine ⟨rfl, rfl, ?_⟩
  rw [gridCoords_length]
  decide

end Cubegen
